import Mathlib

/-!
A shallow embedding of the performance utility layer of the repository
(`ai_coding_agent/core/performance.py`): the `LRUCache` with TTL support and
memory-budget eviction, the `PerformanceMonitor` telemetry ring, the
`BatchProcessor` dispatch logic, the `AsyncPoolExecutor` admission control,
and the `timed_cache` memoization wrapper, together with proofs of the
specified properties.

Conventions of the embedding:
* wall-clock instants (`datetime.now()`) are modelled as `Nat` values passed
  explicitly to each operation; all `datetime.now()` reads inside a single
  call see the same instant;
* Python float arithmetic in the statistics dictionaries is modelled over `ℚ`;
* Python `None` is the `Value.vnone` constructor, so `LRUCache.get`, which
  returns either a cached value or `None`, returns `Value`;
* Python `dict` is an association list with unique keys: membership tests and
  item lookup scan for the key, deletion filters it out, and assignment to a
  fresh key appends at the end (insertion order), as in CPython;
* Python `list.remove` (first occurrence, used on the access-order list only
  under a membership guard) is `pyListRemove`; `list.pop(0)` is head/tail.
-/

/-- Python values as classified by the size estimator `LRUCache._estimate_size`:
the type switch distinguishes strings, numeric scalars (`int`/`float`),
sequences (`list`/`tuple`), mappings (`dict`), and everything else, which is
sized by its textual representation; `vnone` is Python `None`, which falls to
the fallback branch (its `str()` form is the 4-byte text `None`). -/
inductive Value where
  | vnone
  | str (s : String)
  | num
  | vlist (xs : List Value)
  | vdict (kvs : List (Value × Value))
  | other (reprStr : String)

/-- Truth of `value is not None` is falsity of this test. -/
def Value.isNone : Value → Bool
  | .vnone => true
  | _ => false

mutual
/-- Mirrors `LRUCache._estimate_size`: strings cost their UTF-8 byte length,
numeric scalars a flat 8, sequences and mappings the sum of their element
estimates plus a fixed 64-byte overhead, and anything else the byte length of
its textual form plus 100; Python `None` goes through the fallback branch
(`len("None") + 100 = 104`). The `try/except` fallback of the source can only
fire on encoding failures, which total functions over `String` cannot
exhibit. -/
def estimate_size : Value → Nat
  | .str s => s.utf8ByteSize
  | .num => 8
  | .vnone => 104
  | .other reprStr => reprStr.utf8ByteSize + 100
  | .vlist xs => estimateSizeList xs + 64
  | .vdict kvs => estimateSizeDict kvs + 64

/-- Summand of `estimate_size` over a sequence: `sum(estimate(item))`. -/
def estimateSizeList : List Value → Nat
  | [] => 0
  | x :: xs => estimate_size x + estimateSizeList xs

/-- Summand of `estimate_size` over a mapping:
`sum(estimate(k) + estimate(v))`. -/
def estimateSizeDict : List (Value × Value) → Nat
  | [] => 0
  | (k, v) :: rest => estimate_size k + estimate_size v + estimateSizeDict rest
end

/-- Mirrors the `CacheEntry` dataclass of the source. -/
structure CacheEntry where
  data : Value
  created_at : Nat
  last_accessed : Nat
  access_count : Nat
  size_bytes : Nat
  expires_at : Option Nat

/-- Mirrors the mutable state of an `LRUCache` instance: configuration from
`__init__`, the entry mapping, the access-order list (most recently used at
the tail), the running memory total, and the statistics counters. -/
structure LRUCache where
  max_size : Nat
  max_memory_bytes : Nat
  default_ttl : Nat
  cache : List (String × CacheEntry)
  access_order : List String
  current_memory : Int
  hits : Nat
  misses : Nat
  evictions : Nat

/-- Mirrors `LRUCache.__init__(max_size, max_memory_mb, default_ttl)`: the
memory budget is the MB argument scaled to bytes, all containers start empty
and all counters at zero. -/
def LRUCache.init (max_size max_memory_mb default_ttl : Nat) : LRUCache :=
  { max_size := max_size
    max_memory_bytes := max_memory_mb * 1024 * 1024
    default_ttl := default_ttl
    cache := []
    access_order := []
    current_memory := 0
    hits := 0
    misses := 0
    evictions := 0 }

/-- Python `dict` item lookup (`d[key]`, guarded by `key in d`): first — and
by key uniqueness only — binding of the key. -/
def dictLookup (d : List (String × CacheEntry)) (key : String) :
    Option CacheEntry :=
  match d with
  | [] => none
  | (k, v) :: rest => if k = key then some v else dictLookup rest key

/-- Python `del d[key]`: drop the binding of `key` (keys being unique, at
most one binding exists; dropping every match keeps the model total). -/
def dictErase : List (String × CacheEntry) → String →
    List (String × CacheEntry)
  | [], _ => []
  | (k, v) :: rest, key =>
      if k = key then dictErase rest key else (k, v) :: dictErase rest key

/-- Python `d[key] = v` when `key` is already bound: update in place, keeping
the insertion position. -/
def dictReplace : List (String × CacheEntry) → String → CacheEntry →
    List (String × CacheEntry)
  | [], _, _ => []
  | (k, w) :: rest, key, v =>
      if k = key then (key, v) :: dictReplace rest key v
      else (k, w) :: dictReplace rest key v

/-- Python `d[key] = v`: in-place update when bound, append when fresh. -/
def dictInsert (d : List (String × CacheEntry)) (key : String)
    (v : CacheEntry) : List (String × CacheEntry) :=
  if (dictLookup d key).isSome then dictReplace d key v else d ++ [(key, v)]

/-- Python `list.remove(x)` on a list known to contain `x` (the source always
guards the call with `if x in lst`); on a list not containing `x` it is the
identity, matching the guarded call site. -/
def pyListRemove (key : String) : List String → List String
  | [] => []
  | x :: xs => if x = key then xs else x :: pyListRemove key xs

/-- The keys of the cache mapping, in insertion order. -/
def LRUCache.keys (c : LRUCache) : List String := c.cache.map Prod.fst

/-- Sum of `size_bytes` over all stored entries — what `_current_memory` is
meant to track. -/
def LRUCache.memSum (c : LRUCache) : Nat :=
  (c.cache.map (fun p => p.2.size_bytes)).sum

/-- Truth of `entry.expires_at and datetime.now() > entry.expires_at`. -/
def entryExpired (e : CacheEntry) (now : Nat) : Bool :=
  match e.expires_at with
  | some t => decide (t < now)
  | none => false

/-- Mirrors `LRUCache._remove_entry`: if the key is bound, subtract its size
from the memory total and delete the binding; in either case remove the key
from the access-order list (the source guards its `list.remove` with a
membership test, which `pyListRemove` absorbs). -/
def LRUCache.remove_entry (c : LRUCache) (key : String) : LRUCache :=
  match dictLookup c.cache key with
  | some entry =>
      { c with
        current_memory := c.current_memory - (entry.size_bytes : Int)
        cache := dictErase c.cache key
        access_order := pyListRemove key c.access_order }
  | none => { c with access_order := pyListRemove key c.access_order }

/-- Mirrors `LRUCache.get`: a missing key counts a miss; an expired entry is
removed and counts a miss; a live entry has its access metadata refreshed, is
moved to the MRU end of the access-order list, counts a hit, and its data is
returned. A miss returns Python `None`, i.e. `Value.vnone`. -/
def LRUCache.get (c : LRUCache) (key : String) (now : Nat) :
    Value × LRUCache :=
  match dictLookup c.cache key with
  | none => (Value.vnone, { c with misses := c.misses + 1 })
  | some entry =>
      if entryExpired entry now then
        let c1 := c.remove_entry key
        (Value.vnone, { c1 with misses := c1.misses + 1 })
      else
        let entry1 :=
          { entry with last_accessed := now, access_count := entry.access_count + 1 }
        ( entry1.data,
          { c with
            cache := dictReplace c.cache key entry1
            access_order := pyListRemove key c.access_order ++ [key]
            hits := c.hits + 1 } )

/-- One iteration bound for the eviction loop of `LRUCache.set`: the loop
pops the head of the access-order list on each pass, and `remove_entry` can
only shrink that list further, so `access_order.length` bounds the number of
iterations; `evictLoopFuel` run with that much fuel is exactly the source
`while` loop (the `0` case is only reached with an empty access-order list,
where the `if not self._access_order: break` of the loop fires as well). -/
def LRUCache.evictLoopFuel (size_bytes : Nat) :
    Nat → LRUCache → LRUCache
  | 0, c => c
  | fuel + 1, c =>
      if c.max_size ≤ c.cache.length ∨
          (c.max_memory_bytes : Int) < c.current_memory + (size_bytes : Int) then
        match c.access_order with
        | [] => c
        | oldest :: rest =>
            let c1 := LRUCache.remove_entry { c with access_order := rest } oldest
            LRUCache.evictLoopFuel size_bytes fuel
              { c1 with evictions := c1.evictions + 1 }
      else c

/-- The `while` loop of `LRUCache.set` (lines 127–133): while the entry count
is at capacity or the running memory plus the incoming size exceeds the
budget, pop the LRU key from the head of the access-order list, remove it,
and count an eviction; if the access-order list empties first, break. -/
def LRUCache.evictLoop (c : LRUCache) (size_bytes : Nat) : LRUCache :=
  LRUCache.evictLoopFuel size_bytes c.access_order.length c

/-- Mirrors `LRUCache.set`: estimate the size, fully remove any existing
binding of the key, run the eviction loop, then insert a fresh entry whose
expiry is `now + ttl` when a TTL is given, else `now + default_ttl` when the
default is positive, else never. -/
def LRUCache.set (c : LRUCache) (key : String) (value : Value)
    (ttl : Option Nat) (now : Nat) : LRUCache :=
  let size_bytes := estimate_size value
  let c1 := if (dictLookup c.cache key).isSome then c.remove_entry key else c
  let c2 := c1.evictLoop size_bytes
  let expires_at : Option Nat :=
    match ttl with
    | some t => some (now + t)
    | none => if 0 < c2.default_ttl then some (now + c2.default_ttl) else none
  let entry : CacheEntry :=
    { data := value
      created_at := now
      last_accessed := now
      access_count := 0
      size_bytes := size_bytes
      expires_at := expires_at }
  { c2 with
    cache := dictInsert c2.cache key entry
    access_order := c2.access_order ++ [key]
    current_memory := c2.current_memory + (size_bytes : Int) }

/-- Mirrors `LRUCache.delete`: remove the binding if present and report
whether a removal happened; no counters change. -/
def LRUCache.delete (c : LRUCache) (key : String) : Bool × LRUCache :=
  if (dictLookup c.cache key).isSome then (true, c.remove_entry key)
  else (false, c)

/-- Mirrors `LRUCache.clear`: drop all entries, empty the access-order list,
reset the memory total; the statistics counters are untouched. -/
def LRUCache.clear (c : LRUCache) : LRUCache :=
  { c with cache := [], access_order := [], current_memory := 0 }

/-- Mirrors `LRUCache.cleanup_expired`: collect the keys of all entries past
their expiry, remove each, and return how many were removed. -/
def LRUCache.cleanup_expired (c : LRUCache) (now : Nat) : Nat × LRUCache :=
  let expired_keys :=
    (c.cache.filter (fun p => entryExpired p.2 now)).map Prod.fst
  (expired_keys.length,
    expired_keys.foldl (fun acc k => acc.remove_entry k) c)

/-- The statistics dictionary built by `LRUCache.get_stats`; field names
follow the dictionary keys of the source (memory is reported in megabytes). -/
structure CacheStats where
  size : Nat
  max_size : Nat
  memory_used_mb : ℚ
  max_memory_mb : ℚ
  hits : Nat
  misses : Nat
  hit_rate : ℚ
  evictions : Nat

/-- Mirrors `LRUCache.get_stats`: the hit rate is `hits / (hits + misses)`
when any request happened and `0` otherwise, and both memory figures are
converted from bytes to megabytes by dividing by `1024 * 1024`. -/
def LRUCache.get_stats (c : LRUCache) : CacheStats :=
  let total_requests := c.hits + c.misses
  { size := c.cache.length
    max_size := c.max_size
    memory_used_mb := (c.current_memory : ℚ) / (1024 * 1024)
    max_memory_mb := (c.max_memory_bytes : ℚ) / (1024 * 1024)
    hits := c.hits
    misses := c.misses
    hit_rate :=
      if 0 < total_requests then (c.hits : ℚ) / (total_requests : ℚ) else 0
    evictions := c.evictions }

/-- Mirrors the body of the `wrapper` closure produced by `timed_cache`: try
the cache first under the precomputed key; the Python test `if result is not None`
treats a cached `None` exactly like a miss, so in both of those cases the
wrapped function is invoked and its result is written back to the cache (with
no per-call TTL, so the default TTL of the cache applies). Returns the result of the call
and the updated cache. -/
def timed_cache_wrapper (cache : LRUCache) (key : String)
    (func : Unit → Value) (now : Nat) : Value × LRUCache :=
  let r := cache.get key now
  if r.1.isNone then
    let result := func ()
    (result, r.2.set key result none now)
  else (r.1, r.2)

/-- Mirrors the `PerformanceMetrics` dataclass: one recorded operation
sample. Durations (Python floats) are modelled over `ℚ`; `memory_used` is a
signed byte count; `metadata` collects the keyword arguments. -/
structure PerformanceMetrics where
  operation_name : String
  duration : ℚ
  memory_used : Int
  cache_hit : Bool
  timestamp : Nat
  metadata : List (String × Value)

/-- Mirrors the state of a `PerformanceMonitor` instance. -/
structure PerformanceMonitor where
  max_metrics : Nat
  metrics : List PerformanceMetrics

/-- Mirrors `PerformanceMonitor.__init__(max_metrics)`. -/
def PerformanceMonitor.init (max_metrics : Nat) : PerformanceMonitor :=
  { max_metrics := max_metrics, metrics := [] }

/-- The negative-index Python slice `lst[-k:]` as used by the trim
step: the last `k` elements — except that `lst[-0:]` is the whole list, since
`-0 == 0` makes it `lst[0:]`. -/
def pySliceLast (k : Nat) (l : List PerformanceMetrics) :
    List PerformanceMetrics :=
  if k = 0 then l else l.drop (l.length - k)

/-- Core of `PerformanceMonitor.record_operation` once the
`PerformanceMetrics` record is built: append it, then, if the sequence now
exceeds `max_metrics`, replace it by `metrics[-max_metrics:]`. -/
def PerformanceMonitor.recordSample (m : PerformanceMonitor)
    (sample : PerformanceMetrics) : PerformanceMonitor :=
  let ms := m.metrics ++ [sample]
  if m.max_metrics < ms.length then
    { m with metrics := pySliceLast m.max_metrics ms }
  else { m with metrics := ms }

/-- Mirrors `PerformanceMonitor.record_operation`: build the sample from the
arguments and the current instant, then append and trim. -/
def PerformanceMonitor.record_operation (m : PerformanceMonitor)
    (operation_name : String) (duration : ℚ) (memory_used : Int)
    (cache_hit : Bool) (now : Nat) (metadata : List (String × Value)) :
    PerformanceMonitor :=
  m.recordSample
    { operation_name := operation_name
      duration := duration
      memory_used := memory_used
      cache_hit := cache_hit
      timestamp := now
      metadata := metadata }

/-- Return shape of `PerformanceMonitor.get_overall_stats`: the source
returns the single-key dictionary `{"total_operations": 0}` when no metrics
are stored (the `empty` form) and the full statistics dictionary otherwise. -/
inductive OverallStats where
  | empty
  | full (total_operations unique_operations : Nat)
      (total_duration avg_duration : ℚ) (total_memory : Int)
      (avg_memory cache_hit_rate : ℚ) (operations : List String)

/-- The `total_operations` field present in both shapes of the result. -/
def OverallStats.total_operations : OverallStats → Nat
  | .empty => 0
  | .full t _ _ _ _ _ _ _ => t

/-- Distinct elements in first-occurrence order — the key order of the
`operations` dictionary the source builds by insertion. -/
def distinctNames (l : List String) : List String :=
  l.foldl (fun acc x => if x ∈ acc then acc else acc ++ [x]) []

/-- Mirrors `PerformanceMonitor.get_overall_stats`: the degenerate record on
an empty sequence, else totals, averages, the distinct-name count, the cache
hit rate, and the distinct operation names. -/
def PerformanceMonitor.get_overall_stats (m : PerformanceMonitor) :
    OverallStats :=
  if m.metrics.isEmpty then .empty
  else
    let n := m.metrics.length
    let total_duration := (m.metrics.map (fun s => s.duration)).sum
    let total_memory := (m.metrics.map (fun s => s.memory_used)).sum
    let total_cache_hits := (m.metrics.filter (fun s => s.cache_hit)).length
    let names := distinctNames (m.metrics.map (fun s => s.operation_name))
    .full n names.length total_duration (total_duration / (n : ℚ))
      total_memory ((total_memory : ℚ) / (n : ℚ))
      ((total_cache_hits : ℚ) / (n : ℚ)) names

/-- A pending request of the `BatchProcessor`: the payload and the
caller-supplied processing callback, modelled as a function whose outcome is
a value or a raised error (`Except`); its write-once result future is the
`Except` value that `_process_single_request` settles it with. -/
structure BatchRequest (α ε β : Type) where
  data : α
  callback : α → Except ε β

/-- Mirrors the queue state of a `BatchProcessor` instance. -/
structure BatchProcessor (α ε β : Type) where
  batch_size : Nat
  pending_requests : List (BatchRequest α ε β)

/-- Mirrors `BatchProcessor._process_single_request`: run the callback of the request
on its own payload; a returned value resolves the future of that request
(`set_result`) and a raised error rejects it (`set_exception`) — in either
case only the future of this request is settled. -/
def process_single_request (r : BatchRequest α ε β) : Except ε β :=
  r.callback r.data

/-- Mirrors the dispatch phase of `BatchProcessor._process_batch` (lines
495–510): atomically snapshot and clear the pending queue, then settle every
future of every snapshotted request from its own callback; the requests run
concurrently via `asyncio.gather`, and the value of each future depends only on
its own request. Returns the settled futures, in batch order, and the
processor with an emptied queue. -/
def BatchProcessor.process_batch (p : BatchProcessor α ε β) :
    List (Except ε β) × BatchProcessor α ε β :=
  (p.pending_requests.map process_single_request,
    { p with pending_requests := [] })

/-- Phase of one logical task submitted to the `AsyncPoolExecutor`: not yet
holding a permit, executing, or finished (with success or failure). -/
inductive TaskPhase where
  | waiting
  | running
  | done (success : Bool)
deriving DecidableEq

/-- Truth of the statement that the body of this task is currently executing. -/
def TaskPhase.isRunning : TaskPhase → Bool
  | .running => true
  | _ => false

/-- State of an `AsyncPoolExecutor` together with the tasks submitted to it:
`sem` is the internal counter of `asyncio.Semaphore(max_workers)`, and
`tasks` the phase of each submission in submission order. -/
structure PoolState where
  max_workers : Nat
  sem : Nat
  tasks : List TaskPhase
deriving DecidableEq

/-- Mirrors `AsyncPoolExecutor.__init__(max_workers)`: the semaphore starts
at `max_workers` with no submissions yet. -/
def PoolState.init (max_workers : Nat) : PoolState :=
  { max_workers := max_workers, sem := max_workers, tasks := [] }

/-- Number of task bodies currently executing. -/
def countRunning (ts : List TaskPhase) : Nat :=
  (ts.filter (fun t => t.isRunning)).length

/-- Interleaving semantics of `AsyncPoolExecutor.submit` under cooperative
scheduling: a new call to `submit` registers a task that waits on the
semaphore (`submit`); a waiting task may start only by decrementing a
positive semaphore (`acquire` — the `async with self.semaphore:` entry); and
a running task that completes, successfully or not, releases the semaphore
as the `async with` block is exited before the outcome propagates
(`complete`). -/
inductive PoolStep : PoolState → PoolState → Prop
  | submit (s : PoolState) :
      PoolStep s { s with tasks := s.tasks ++ [.waiting] }
  | acquire (s : PoolState) (i : Nat) (hw : s.tasks[i]? = some .waiting)
      (hs : 0 < s.sem) :
      PoolStep s { s with sem := s.sem - 1, tasks := s.tasks.set i .running }
  | complete (s : PoolState) (i : Nat) (success : Bool)
      (hr : s.tasks[i]? = some .running) :
      PoolStep s
        { s with sem := s.sem + 1, tasks := s.tasks.set i (.done success) }

/-- States reachable from a fresh `AsyncPoolExecutor(max_workers)` by any
interleaving of submissions, admissions, and completions. -/
inductive PoolReachable (max_workers : Nat) : PoolState → Prop
  | init : PoolReachable max_workers (PoolState.init max_workers)
  | step {s t : PoolState} : PoolReachable max_workers s → PoolStep s t →
      PoolReachable max_workers t

/-- Cache states reachable from a fresh `LRUCache` by any sequence of
completed public operations. -/
inductive CacheReachable : LRUCache → Prop
  | init (max_size max_memory_mb default_ttl : Nat) :
      CacheReachable (LRUCache.init max_size max_memory_mb default_ttl)
  | get {c : LRUCache} (key : String) (now : Nat) :
      CacheReachable c → CacheReachable (c.get key now).2
  | set {c : LRUCache} (key : String) (value : Value) (ttl : Option Nat)
      (now : Nat) : CacheReachable c → CacheReachable (c.set key value ttl now)
  | delete {c : LRUCache} (key : String) :
      CacheReachable c → CacheReachable (c.delete key).2
  | clear {c : LRUCache} : CacheReachable c → CacheReachable c.clear
  | cleanup_expired {c : LRUCache} (now : Nat) :
      CacheReachable c → CacheReachable (c.cleanup_expired now).2

/-- The structural well-formedness of a cache state that the source maintains
across operations: the access-order list is a permutation of the
keys, the keys are pairwise distinct, and the running memory total is the sum
of the stored entry sizes. -/
structure CacheInv (c : LRUCache) : Prop where
  perm : c.access_order.Perm c.keys
  nodup : c.keys.Nodup
  mem : c.current_memory = (c.memSum : Int)

/-- Concrete LRU scenario of the specification on a two-entry cache:
set(A), set(B), then get(A) — refreshing A as most recently used. -/
def lruDemoFirstGetA : Value × LRUCache :=
  (((LRUCache.init 2 100 0).set "A" (Value.str "va") none 0).set "B"
    (Value.str "vb") none 0).get "A" 0

/-- The scenario state after the subsequent set(C), which must evict B. -/
def lruDemoAfterSetC : LRUCache :=
  lruDemoFirstGetA.2.set "C" (Value.str "vc") none 0

/-- Probe get(A) on the scenario state. -/
def lruDemoGetA : Value × LRUCache := lruDemoAfterSetC.get "A" 0

/-- Probe get(C) after the probe of A. -/
def lruDemoGetC : Value × LRUCache := lruDemoGetA.2.get "C" 0

/-- Probe get(B) after the probes of A and C. -/
def lruDemoGetB : Value × LRUCache := lruDemoGetC.2.get "B" 0

theorem pyListRemove_of_not_mem {key : String} {l : List String}
    (h : key ∉ l) : pyListRemove key l = l := by
  induction l with
  | nil => rfl
  | cons x xs ih =>
    have hx : ¬(x = key) := by rintro rfl; exact h (List.mem_cons_self x xs)
    simp only [pyListRemove, if_neg hx]
    rw [ih (fun hk => h (List.mem_cons_of_mem _ hk))]

theorem pyListRemove_length_le (key : String) (l : List String) :
    (pyListRemove key l).length ≤ l.length := by
  induction l with
  | nil => exact Nat.le_refl _
  | cons x xs ih =>
    simp only [pyListRemove]
    split
    · exact Nat.le_succ _
    · simpa using Nat.succ_le_succ ih

theorem pyListRemove_perm (key : String) {l₁ l₂ : List String}
    (h : l₁.Perm l₂) :
    (pyListRemove key l₁).Perm (pyListRemove key l₂) := by
  induction h with
  | nil => exact List.Perm.refl _
  | cons x h ih =>
    simp only [pyListRemove]
    split
    · exact h
    · exact ih.cons x
  | swap x y l =>
    simp only [pyListRemove]
    by_cases hy : y = key <;> by_cases hx : x = key <;>
      simp only [hy, hx, ite_true, ite_false, if_pos, if_neg,
        not_false_eq_true]
    · subst hy; subst hx; exact List.Perm.refl _
    · exact List.Perm.refl _
    · exact List.Perm.refl _
    · exact List.Perm.swap x y _
  | trans _ _ ih₁ ih₂ => exact ih₁.trans ih₂

theorem pyListRemove_cons_perm {key : String} {l : List String}
    (h : key ∈ l) : l.Perm (key :: pyListRemove key l) := by
  induction l with
  | nil => cases h
  | cons x xs ih =>
    simp only [pyListRemove]
    by_cases hx : x = key
    · subst hx
      simp only [ite_true]
      exact List.Perm.refl _
    · have hk : key ∈ xs := by
        rcases List.mem_cons.mp h with h' | h'
        · exact absurd h'.symm hx
        · exact h'
      simp only [if_neg hx]
      exact ((ih hk).cons x).trans (List.Perm.swap key x _)

theorem pyListRemove_nodup {key : String} {l : List String}
    (h : l.Nodup) : (pyListRemove key l).Nodup := by
  by_cases hk : key ∈ l
  · have := (pyListRemove_cons_perm hk).nodup_iff.mp h
    exact (List.nodup_cons.mp this).2
  · rw [pyListRemove_of_not_mem hk]; exact h

theorem dictLookup_eq_none_iff {d : List (String × CacheEntry)}
    {key : String} : dictLookup d key = none ↔ key ∉ d.map Prod.fst := by
  induction d with
  | nil => simp [dictLookup]
  | cons p rest ih =>
    obtain ⟨k, v⟩ := p
    simp only [dictLookup, List.map_cons, List.mem_cons]
    by_cases hk : k = key
    · subst hk; simp
    · simp only [if_neg hk, ih]
      constructor
      · intro h hmem
        rcases hmem with h' | h'
        · exact hk h'.symm
        · exact h h'
      · intro h h'
        exact h (Or.inr h')

theorem dictLookup_isSome_iff {d : List (String × CacheEntry)}
    {key : String} : (dictLookup d key).isSome ↔ key ∈ d.map Prod.fst := by
  rcases hd : dictLookup d key with _ | v
  · simp only [Option.isSome_none, Bool.false_eq_true, false_iff]
    exact dictLookup_eq_none_iff.mp hd
  · simp only [Option.isSome_some, true_iff]
    by_contra hmem
    rw [← dictLookup_eq_none_iff] at hmem
    rw [hmem] at hd
    cases hd

theorem dictErase_of_not_mem {d : List (String × CacheEntry)} {key : String}
    (h : key ∉ d.map Prod.fst) : dictErase d key = d := by
  induction d with
  | nil => rfl
  | cons p rest ih =>
    obtain ⟨k, v⟩ := p
    simp only [List.map_cons, List.mem_cons] at h
    have hk : ¬(k = key) := fun h' => h (Or.inl h'.symm)
    simp only [dictErase, if_neg hk]
    rw [ih (fun h' => h (Or.inr h'))]

theorem dictErase_map_fst {d : List (String × CacheEntry)} {key : String}
    (hn : (d.map Prod.fst).Nodup) :
    (dictErase d key).map Prod.fst = pyListRemove key (d.map Prod.fst) := by
  induction d with
  | nil => rfl
  | cons p rest ih =>
    obtain ⟨k, v⟩ := p
    simp only [List.map_cons, List.nodup_cons] at hn
    simp only [dictErase, List.map_cons, pyListRemove]
    by_cases hk : k = key
    · subst hk
      simp only [ite_true]
      rw [dictErase_of_not_mem hn.1]
    · simp only [if_neg hk, List.map_cons]
      rw [ih hn.2]

theorem dictErase_lookup_self (d : List (String × CacheEntry))
    (key : String) : dictLookup (dictErase d key) key = none := by
  induction d with
  | nil => rfl
  | cons p rest ih =>
    obtain ⟨k, v⟩ := p
    simp only [dictErase]
    by_cases hk : k = key
    · simpa [hk] using ih
    · simpa [dictLookup, hk] using ih

theorem dictErase_sum {d : List (String × CacheEntry)} {key : String}
    {e : CacheEntry} (hn : (d.map Prod.fst).Nodup)
    (he : dictLookup d key = some e) :
    ((dictErase d key).map (fun p => p.2.size_bytes)).sum + e.size_bytes =
      (d.map (fun p => p.2.size_bytes)).sum := by
  induction d with
  | nil => cases he
  | cons p rest ih =>
    obtain ⟨k, v⟩ := p
    simp only [List.map_cons, List.nodup_cons] at hn
    simp only [dictLookup] at he
    simp only [dictErase]
    by_cases hk : k = key
    · rw [if_pos hk] at he
      cases he
      subst hk
      rw [if_pos rfl, dictErase_of_not_mem hn.1]
      simp [Nat.add_comm]
    · rw [if_neg hk] at he
      simp only [if_neg hk, List.map_cons, List.sum_cons]
      rw [Nat.add_assoc, ih hn.2 he]

theorem dictReplace_of_not_mem {d : List (String × CacheEntry)}
    {key : String} (h : key ∉ d.map Prod.fst) (v : CacheEntry) :
    dictReplace d key v = d := by
  induction d with
  | nil => rfl
  | cons p rest ih =>
    obtain ⟨k, w⟩ := p
    simp only [List.map_cons, List.mem_cons] at h
    have hk : ¬(k = key) := fun h' => h (Or.inl h'.symm)
    simp only [dictReplace, if_neg hk]
    rw [ih (fun h' => h (Or.inr h'))]

theorem dictReplace_map_fst (d : List (String × CacheEntry)) (key : String)
    (v : CacheEntry) :
    (dictReplace d key v).map Prod.fst = d.map Prod.fst := by
  induction d with
  | nil => rfl
  | cons p rest ih =>
    obtain ⟨k, w⟩ := p
    simp only [dictReplace]
    by_cases hk : k = key
    · subst hk
      simp only [ite_true, List.map_cons, ih]
    · simp only [if_neg hk, List.map_cons, ih]

theorem dictReplace_sum {d : List (String × CacheEntry)} {key : String}
    {e : CacheEntry} (hn : (d.map Prod.fst).Nodup)
    (he : dictLookup d key = some e) (v : CacheEntry) :
    ((dictReplace d key v).map (fun p => p.2.size_bytes)).sum + e.size_bytes =
      (d.map (fun p => p.2.size_bytes)).sum + v.size_bytes := by
  induction d with
  | nil => cases he
  | cons p rest ih =>
    obtain ⟨k, w⟩ := p
    simp only [List.map_cons, List.nodup_cons] at hn
    simp only [dictLookup] at he
    simp only [dictReplace]
    by_cases hk : k = key
    · rw [if_pos hk] at he
      cases he
      subst hk
      rw [if_pos rfl, dictReplace_of_not_mem hn.1]
      simp only [List.map_cons, List.sum_cons]
      omega
    · rw [if_neg hk] at he
      simp only [if_neg hk, List.map_cons, List.sum_cons]
      have := ih hn.2 he
      omega

theorem dictLookup_append_self {d : List (String × CacheEntry)}
    {key : String} (h : dictLookup d key = none) (v : CacheEntry) :
    dictLookup (d ++ [(key, v)]) key = some v := by
  induction d with
  | nil => simp [dictLookup]
  | cons p rest ih =>
    obtain ⟨k, w⟩ := p
    simp only [dictLookup, List.cons_append] at h ⊢
    by_cases hk : k = key
    · rw [if_pos hk] at h; cases h
    · rw [if_neg hk] at h ⊢
      exact ih h

theorem dictInsert_of_none {d : List (String × CacheEntry)} {key : String}
    (h : dictLookup d key = none) (v : CacheEntry) :
    dictInsert d key v = d ++ [(key, v)] := by
  simp [dictInsert, h]

theorem cacheInv_evictions {x : LRUCache} (h : CacheInv x) (n : Nat) :
    CacheInv { x with evictions := n } :=
  ⟨h.perm, h.nodup, h.mem⟩

theorem remove_entry_inv {c : LRUCache} (h : CacheInv c) (key : String) :
    CacheInv (c.remove_entry key) := by
  rcases hd : dictLookup c.cache key with _ | e
  · have hkeys : key ∉ c.keys := dictLookup_eq_none_iff.mp hd
    have haccess : key ∉ c.access_order :=
      fun hmem => hkeys (h.perm.mem_iff.mp hmem)
    unfold LRUCache.remove_entry
    rw [hd]
    exact ⟨by simpa [LRUCache.keys, pyListRemove_of_not_mem haccess]
        using h.perm,
      h.nodup, h.mem⟩
  · unfold LRUCache.remove_entry
    rw [hd]
    refine ⟨?_, ?_, ?_⟩
    · show (pyListRemove key c.access_order).Perm
        ((dictErase c.cache key).map Prod.fst)
      rw [dictErase_map_fst h.nodup]
      exact pyListRemove_perm key h.perm
    · show ((dictErase c.cache key).map Prod.fst).Nodup
      rw [dictErase_map_fst h.nodup]
      exact pyListRemove_nodup h.nodup
    · have hs := dictErase_sum h.nodup hd
      have hm := h.mem
      simp only [LRUCache.memSum] at hm ⊢
      omega

theorem remove_entry_fields (c : LRUCache) (key : String) :
    (c.remove_entry key).max_size = c.max_size ∧
    (c.remove_entry key).max_memory_bytes = c.max_memory_bytes ∧
    (c.remove_entry key).default_ttl = c.default_ttl ∧
    (c.remove_entry key).hits = c.hits ∧
    (c.remove_entry key).misses = c.misses ∧
    (c.remove_entry key).evictions = c.evictions := by
  unfold LRUCache.remove_entry
  rcases dictLookup c.cache key with _ | e <;>
    exact ⟨rfl, rfl, rfl, rfl, rfl, rfl⟩

theorem remove_entry_lookup_self (c : LRUCache) (key : String) :
    dictLookup (c.remove_entry key).cache key = none := by
  unfold LRUCache.remove_entry
  rcases hd : dictLookup c.cache key with _ | e
  · simpa using hd
  · simpa using dictErase_lookup_self c.cache key

theorem dictErase_map_fst_subset (d : List (String × CacheEntry))
    (key : String) : (dictErase d key).map Prod.fst ⊆ d.map Prod.fst := by
  induction d with
  | nil => exact fun a ha => ha
  | cons p rest ih =>
    obtain ⟨k, v⟩ := p
    simp only [dictErase]
    by_cases hk : k = key
    · rw [if_pos hk]
      exact fun a ha => List.mem_cons_of_mem _ (ih ha)
    · rw [if_neg hk]
      intro a ha
      rcases List.mem_cons.mp ha with h' | h'
      · exact h' ▸ List.mem_cons_self _ _
      · exact List.mem_cons_of_mem _ (ih h')

theorem remove_entry_keys_subset (c : LRUCache) (key : String) :
    (c.remove_entry key).keys ⊆ c.keys := by
  unfold LRUCache.remove_entry
  rcases dictLookup c.cache key with _ | e
  · exact fun a ha => ha
  · exact dictErase_map_fst_subset c.cache key

theorem evict_step_inv {c : LRUCache} {oldest : String} {rest : List String}
    (h : CacheInv c) (haccess : c.access_order = oldest :: rest) :
    CacheInv (LRUCache.remove_entry { c with access_order := rest } oldest) := by
  have hmemkeys : oldest ∈ c.keys :=
    h.perm.mem_iff.mp (haccess ▸ List.mem_cons_self oldest rest)
  have hnodup_access : c.access_order.Nodup := h.perm.nodup_iff.mpr h.nodup
  have hnotrest : oldest ∉ rest := by
    rw [haccess] at hnodup_access
    exact (List.nodup_cons.mp hnodup_access).1
  rcases hd : dictLookup c.cache oldest with _ | e
  · exact absurd hmemkeys (dictLookup_eq_none_iff.mp hd)
  · unfold LRUCache.remove_entry
    rw [show dictLookup ({ c with access_order := rest } : LRUCache).cache
      oldest = some e from hd]
    refine ⟨?_, ?_, ?_⟩
    · show (pyListRemove oldest rest).Perm
        ((dictErase c.cache oldest).map Prod.fst)
      rw [pyListRemove_of_not_mem hnotrest, dictErase_map_fst h.nodup]
      have hp := pyListRemove_perm oldest (haccess ▸ h.perm)
      simpa [pyListRemove] using hp
    · show ((dictErase c.cache oldest).map Prod.fst).Nodup
      rw [dictErase_map_fst h.nodup]
      exact pyListRemove_nodup h.nodup
    · have hs := dictErase_sum h.nodup hd
      have hm := h.mem
      simp only [LRUCache.memSum] at hm ⊢
      omega

theorem evict_step_access_order (c : LRUCache) (oldest : String)
    (rest : List String) :
    (LRUCache.remove_entry { c with access_order := rest }
      oldest).access_order = pyListRemove oldest rest := by
  unfold LRUCache.remove_entry
  rcases dictLookup ({ c with access_order := rest } : LRUCache).cache oldest
    with _ | e <;> rfl

theorem evictLoopFuel_inv (size_bytes fuel : Nat) {c : LRUCache}
    (h : CacheInv c) : CacheInv (LRUCache.evictLoopFuel size_bytes fuel c) := by
  induction fuel generalizing c with
  | zero => exact h
  | succ fuel ih =>
    rw [LRUCache.evictLoopFuel]
    split
    · cases haccess : c.access_order with
      | nil => exact h
      | cons oldest rest =>
        exact ih (cacheInv_evictions (evict_step_inv h haccess) _)
    · exact h

theorem evictLoopFuel_keys_subset (size_bytes fuel : Nat) (c : LRUCache) :
    (LRUCache.evictLoopFuel size_bytes fuel c).keys ⊆ c.keys := by
  induction fuel generalizing c with
  | zero => exact fun a ha => ha
  | succ fuel ih =>
    rw [LRUCache.evictLoopFuel]
    split
    · cases haccess : c.access_order with
      | nil => exact fun a ha => ha
      | cons oldest rest =>
        intro a ha
        have ha' : a ∈ (LRUCache.evictLoopFuel size_bytes fuel
            { LRUCache.remove_entry { c with access_order := rest } oldest with
              evictions := (LRUCache.remove_entry
                { c with access_order := rest } oldest).evictions + 1 }).keys :=
          ha
        have hsub := ih { LRUCache.remove_entry
            { c with access_order := rest } oldest with
          evictions := (LRUCache.remove_entry
            { c with access_order := rest } oldest).evictions + 1 } ha'
        exact remove_entry_keys_subset { c with access_order := rest } oldest
          hsub
    · exact fun a ha => ha

theorem evictLoopFuel_fields (size_bytes fuel : Nat) (c : LRUCache) :
    (LRUCache.evictLoopFuel size_bytes fuel c).max_size = c.max_size ∧
    (LRUCache.evictLoopFuel size_bytes fuel c).max_memory_bytes =
      c.max_memory_bytes ∧
    (LRUCache.evictLoopFuel size_bytes fuel c).default_ttl = c.default_ttl ∧
    (LRUCache.evictLoopFuel size_bytes fuel c).hits = c.hits ∧
    (LRUCache.evictLoopFuel size_bytes fuel c).misses = c.misses := by
  induction fuel generalizing c with
  | zero => exact ⟨rfl, rfl, rfl, rfl, rfl⟩
  | succ fuel ih =>
    rw [LRUCache.evictLoopFuel]
    split
    · cases haccess : c.access_order with
      | nil => exact ⟨rfl, rfl, rfl, rfl, rfl⟩
      | cons oldest rest =>
        have h1 := ih { LRUCache.remove_entry { c with access_order := rest }
            oldest with
          evictions := (LRUCache.remove_entry { c with access_order := rest }
            oldest).evictions + 1 }
        have h2 := remove_entry_fields { c with access_order := rest } oldest
        exact ⟨h1.1.trans h2.1, h1.2.1.trans h2.2.1, h1.2.2.1.trans h2.2.2.1,
          h1.2.2.2.1.trans h2.2.2.2.1, h1.2.2.2.2.trans h2.2.2.2.2.1⟩
    · exact ⟨rfl, rfl, rfl, rfl, rfl⟩

theorem evictLoopFuel_post (size_bytes fuel : Nat) {c : LRUCache}
    (h : CacheInv c) (hfuel : c.access_order.length ≤ fuel) :
    ¬((LRUCache.evictLoopFuel size_bytes fuel c).max_size ≤
          (LRUCache.evictLoopFuel size_bytes fuel c).cache.length ∨
        ((LRUCache.evictLoopFuel size_bytes fuel c).max_memory_bytes : Int) <
          (LRUCache.evictLoopFuel size_bytes fuel c).current_memory +
            (size_bytes : Int)) ∨
      (LRUCache.evictLoopFuel size_bytes fuel c).cache = [] := by
  induction fuel generalizing c with
  | zero =>
    right
    have haccess : c.access_order = [] :=
      List.length_eq_zero.mp (Nat.le_zero.mp hfuel)
    have hkeys : c.keys = [] := by
      have hp := h.perm.symm
      rw [haccess] at hp
      exact List.perm_nil.mp hp
    exact List.map_eq_nil_iff.mp hkeys
  | succ fuel ih =>
    rw [LRUCache.evictLoopFuel]
    split
    · cases haccess : c.access_order with
      | nil =>
        right
        have hkeys : c.keys = [] := by
          have hp := h.perm.symm
          rw [haccess] at hp
          exact List.perm_nil.mp hp
        exact List.map_eq_nil_iff.mp hkeys
      | cons oldest rest =>
        apply ih (cacheInv_evictions (evict_step_inv h haccess) _)
        show (LRUCache.remove_entry { c with access_order := rest }
          oldest).access_order.length ≤ fuel
        rw [evict_step_access_order]
        have h2 := pyListRemove_length_le oldest rest
        have h3 : c.access_order.length = rest.length + 1 := by
          rw [haccess]; rfl
        omega
    · left
      assumption

theorem cacheInv_misses {x : LRUCache} (h : CacheInv x) (n : Nat) :
    CacheInv { x with misses := n } :=
  ⟨h.perm, h.nodup, h.mem⟩

theorem get_eq_miss {c : LRUCache} {key : String} (now : Nat)
    (hd : dictLookup c.cache key = none) :
    c.get key now = (Value.vnone, { c with misses := c.misses + 1 }) := by
  unfold LRUCache.get
  split
  · rfl
  · rename_i entry heq
    rw [hd] at heq
    cases heq

theorem get_eq_expired {c : LRUCache} {key : String} {e : CacheEntry}
    {now : Nat} (hd : dictLookup c.cache key = some e)
    (hexp : entryExpired e now = true) :
    c.get key now = (Value.vnone, { c.remove_entry key with
      misses := (c.remove_entry key).misses + 1 }) := by
  unfold LRUCache.get
  split
  · rename_i heq
    rw [hd] at heq
    cases heq
  · rename_i entry heq
    rw [hd] at heq
    injection heq with heq'
    subst heq'
    rw [if_pos hexp]

theorem get_eq_hit {c : LRUCache} {key : String} {e : CacheEntry} {now : Nat}
    (hd : dictLookup c.cache key = some e)
    (hexp : entryExpired e now = false) :
    c.get key now = (e.data, { c with
      cache := dictReplace c.cache key
        { e with last_accessed := now, access_count := e.access_count + 1 }
      access_order := pyListRemove key c.access_order ++ [key]
      hits := c.hits + 1 }) := by
  unfold LRUCache.get
  split
  · rename_i heq
    rw [hd] at heq
    cases heq
  · rename_i entry heq
    rw [hd] at heq
    injection heq with heq'
    subst heq'
    have hne : ¬(entryExpired e now = true) := by simp [hexp]
    rw [if_neg hne]

theorem insert_step_inv {c2 : LRUCache} (h : CacheInv c2) {key : String}
    (hnone : dictLookup c2.cache key = none) (entry : CacheEntry) :
    CacheInv { c2 with
      cache := dictInsert c2.cache key entry
      access_order := c2.access_order ++ [key]
      current_memory := c2.current_memory + (entry.size_bytes : Int) } := by
  have hkey : key ∉ c2.keys := dictLookup_eq_none_iff.mp hnone
  refine ⟨?_, ?_, ?_⟩
  · show (c2.access_order ++ [key]).Perm
      ((dictInsert c2.cache key entry).map Prod.fst)
    rw [dictInsert_of_none hnone, List.map_append]
    exact h.perm.append_right _
  · show ((dictInsert c2.cache key entry).map Prod.fst).Nodup
    rw [dictInsert_of_none hnone]
    simp only [List.map_append, List.map_cons, List.map_nil]
    rw [List.nodup_append]
    refine ⟨h.nodup, List.nodup_singleton key, ?_⟩
    intro a ha hb
    rw [List.mem_singleton] at hb
    subst hb
    exact hkey ha
  · have hm := h.mem
    simp only [LRUCache.memSum] at hm ⊢
    rw [dictInsert_of_none hnone]
    simp only [List.map_append, List.map_cons, List.map_nil, List.sum_append,
      List.sum_cons, List.sum_nil]
    omega

theorem hit_step_inv {c : LRUCache} (h : CacheInv c) {key : String}
    {e : CacheEntry} (hd : dictLookup c.cache key = some e) (e1 : CacheEntry)
    (hsize : e1.size_bytes = e.size_bytes) :
    CacheInv { c with
      cache := dictReplace c.cache key e1
      access_order := pyListRemove key c.access_order ++ [key]
      hits := c.hits + 1 } := by
  have hkeys : key ∈ c.keys :=
    dictLookup_isSome_iff.mp (by rw [hd]; rfl)
  have haccess : key ∈ c.access_order := h.perm.mem_iff.mpr hkeys
  refine ⟨?_, ?_, ?_⟩
  · show (pyListRemove key c.access_order ++ [key]).Perm
      ((dictReplace c.cache key e1).map Prod.fst)
    rw [dictReplace_map_fst]
    have hp : (pyListRemove key c.access_order ++ [key]).Perm
        (key :: pyListRemove key c.access_order) := List.perm_append_comm
    exact hp.trans ((pyListRemove_cons_perm haccess).symm.trans h.perm)
  · show ((dictReplace c.cache key e1).map Prod.fst).Nodup
    rw [dictReplace_map_fst]
    exact h.nodup
  · have hs := dictReplace_sum h.nodup hd e1
    have hm := h.mem
    simp only [LRUCache.memSum] at hm ⊢
    rw [hsize] at hs
    omega

theorem set_inv {c : LRUCache} (h : CacheInv c) (key : String) (value : Value)
    (ttl : Option Nat) (now : Nat) : CacheInv (c.set key value ttl now) := by
  have h1 : CacheInv
      (if (dictLookup c.cache key).isSome then c.remove_entry key else c) := by
    split
    · exact remove_entry_inv h key
    · exact h
  have hnone1 : dictLookup
      (if (dictLookup c.cache key).isSome then c.remove_entry key
        else c).cache key = none := by
    split
    · exact remove_entry_lookup_self c key
    · rename_i hfalse
      rcases hd : dictLookup c.cache key with _ | e
      · rfl
      · rw [hd] at hfalse
        simp at hfalse
  have h2 : CacheInv
      ((if (dictLookup c.cache key).isSome then c.remove_entry key
        else c).evictLoop (estimate_size value)) :=
    evictLoopFuel_inv _ _ h1
  have hnone2 : dictLookup
      ((if (dictLookup c.cache key).isSome then c.remove_entry key
        else c).evictLoop (estimate_size value)).cache key = none := by
    rw [dictLookup_eq_none_iff]
    intro hmem
    exact (dictLookup_eq_none_iff.mp hnone1)
      (evictLoopFuel_keys_subset _ _ _ hmem)
  exact insert_step_inv h2 hnone2 _

theorem get_inv {c : LRUCache} (h : CacheInv c) (key : String) (now : Nat) :
    CacheInv (c.get key now).2 := by
  rcases hd : dictLookup c.cache key with _ | e
  · rw [get_eq_miss now hd]
    exact cacheInv_misses h _
  · rcases hexp : entryExpired e now with _ | _
    · rw [get_eq_hit hd hexp]
      exact hit_step_inv h hd _ rfl
    · rw [get_eq_expired hd hexp]
      exact cacheInv_misses (remove_entry_inv h key) _

theorem delete_inv {c : LRUCache} (h : CacheInv c) (key : String) :
    CacheInv (c.delete key).2 := by
  unfold LRUCache.delete
  split
  · exact remove_entry_inv h key
  · exact h

theorem clear_inv (c : LRUCache) : CacheInv c.clear := by
  refine ⟨?_, ?_, ?_⟩
  · exact List.Perm.refl _
  · exact List.nodup_nil
  · rfl

theorem foldl_remove_entry_inv {c : LRUCache} (h : CacheInv c)
    (ks : List String) :
    CacheInv (ks.foldl (fun acc k => acc.remove_entry k) c) := by
  induction ks generalizing c with
  | nil => exact h
  | cons k ks ih => exact ih (remove_entry_inv h k)

theorem cleanup_expired_inv {c : LRUCache} (h : CacheInv c) (now : Nat) :
    CacheInv (c.cleanup_expired now).2 :=
  foldl_remove_entry_inv h _

theorem reachable_inv {c : LRUCache} (h : CacheReachable c) : CacheInv c := by
  induction h with
  | init a b d => exact ⟨List.Perm.refl _, List.nodup_nil, rfl⟩
  | get key now _ ih => exact get_inv ih key now
  | set key value ttl now _ ih => exact set_inv ih key value ttl now
  | delete key _ ih => exact delete_inv ih key
  | clear _ ih => exact clear_inv _
  | cleanup_expired now _ ih => exact cleanup_expired_inv ih now

theorem evictLoop_def (c : LRUCache) (size_bytes : Nat) :
    c.evictLoop size_bytes =
      LRUCache.evictLoopFuel size_bytes c.access_order.length c := rfl

theorem set_pre_inv {c : LRUCache} (h : CacheInv c) (key : String) :
    CacheInv (if (dictLookup c.cache key).isSome then c.remove_entry key
      else c) := by
  split
  · exact remove_entry_inv h key
  · exact h

theorem set_pre_lookup_none (c : LRUCache) (key : String) (sz : Nat) :
    dictLookup ((if (dictLookup c.cache key).isSome then c.remove_entry key
      else c).evictLoop sz).cache key = none := by
  have hnone1 : dictLookup
      (if (dictLookup c.cache key).isSome then c.remove_entry key
        else c).cache key = none := by
    split
    · exact remove_entry_lookup_self c key
    · rename_i hfalse
      rcases hd : dictLookup c.cache key with _ | e
      · rfl
      · rw [hd] at hfalse
        simp at hfalse
  rw [dictLookup_eq_none_iff]
  intro hmem
  exact (dictLookup_eq_none_iff.mp hnone1)
    (evictLoopFuel_keys_subset _ _ _ hmem)

theorem set_decomp (c : LRUCache) (key : String) (value : Value)
    (ttl : Option Nat) (now : Nat) :
    ∃ ea : Option Nat,
      c.set key value ttl now =
        { (if (dictLookup c.cache key).isSome then c.remove_entry key
            else c).evictLoop (estimate_size value) with
          cache := dictInsert ((if (dictLookup c.cache key).isSome then
              c.remove_entry key else c).evictLoop
                (estimate_size value)).cache key
            { data := value, created_at := now, last_accessed := now,
              access_count := 0, size_bytes := estimate_size value,
              expires_at := ea }
          access_order := ((if (dictLookup c.cache key).isSome then
            c.remove_entry key else c).evictLoop
              (estimate_size value)).access_order ++ [key]
          current_memory := ((if (dictLookup c.cache key).isSome then
            c.remove_entry key else c).evictLoop
              (estimate_size value)).current_memory +
            (estimate_size value : Int) } :=
  ⟨_, rfl⟩

theorem set_cache_eq_ttl (c : LRUCache) (key : String) (value : Value)
    (t now : Nat) :
    (c.set key value (some t) now).cache =
      dictInsert ((if (dictLookup c.cache key).isSome then c.remove_entry key
          else c).evictLoop (estimate_size value)).cache key
        { data := value, created_at := now, last_accessed := now,
          access_count := 0, size_bytes := estimate_size value,
          expires_at := some (now + t) } := rfl

theorem set_lookup_self (c : LRUCache) (key : String) (value : Value)
    (t now : Nat) :
    dictLookup (c.set key value (some t) now).cache key =
      some ({ data := value, created_at := now, last_accessed := now,
              access_count := 0, size_bytes := estimate_size value,
              expires_at := some (now + t) } : CacheEntry) := by
  have hn := set_pre_lookup_none c key (estimate_size value)
  rw [set_cache_eq_ttl, dictInsert_of_none hn]
  exact dictLookup_append_self hn _

theorem set_fields (c : LRUCache) (key : String) (value : Value)
    (ttl : Option Nat) (now : Nat) :
    (c.set key value ttl now).max_size = c.max_size ∧
    (c.set key value ttl now).max_memory_bytes = c.max_memory_bytes ∧
    (c.set key value ttl now).default_ttl = c.default_ttl ∧
    (c.set key value ttl now).hits = c.hits ∧
    (c.set key value ttl now).misses = c.misses := by
  have h1 := evictLoopFuel_fields (estimate_size value)
    (if (dictLookup c.cache key).isSome then c.remove_entry key
      else c).access_order.length
    (if (dictLookup c.cache key).isSome then c.remove_entry key else c)
  have h2 : (if (dictLookup c.cache key).isSome then c.remove_entry key
        else c).max_size = c.max_size ∧
      (if (dictLookup c.cache key).isSome then c.remove_entry key
        else c).max_memory_bytes = c.max_memory_bytes ∧
      (if (dictLookup c.cache key).isSome then c.remove_entry key
        else c).default_ttl = c.default_ttl ∧
      (if (dictLookup c.cache key).isSome then c.remove_entry key
        else c).hits = c.hits ∧
      (if (dictLookup c.cache key).isSome then c.remove_entry key
        else c).misses = c.misses := by
    split
    · have := remove_entry_fields c key
      exact ⟨this.1, this.2.1, this.2.2.1, this.2.2.2.1, this.2.2.2.2.1⟩
    · exact ⟨rfl, rfl, rfl, rfl, rfl⟩
  exact ⟨h1.1.trans h2.1, h1.2.1.trans h2.2.1, h1.2.2.1.trans h2.2.2.1,
    h1.2.2.2.1.trans h2.2.2.2.1, h1.2.2.2.2.trans h2.2.2.2.2⟩

/-- C1: for every reachable cache state with a positive entry bound and a
positive memory budget, after any further `set` completes, either the entry
count is within `max_size` and the memory total within `max_memory_bytes`, or
the cache holds exactly the one just-inserted entry, whose own size alone
exceeds the budget — the soft-limit escape hatch taken when the access-order
list empties during eviction. -/
theorem cache_bound_after_set (c : LRUCache) (hre : CacheReachable c)
    (hms : 0 < c.max_size) (hmm : 0 < c.max_memory_bytes) (key : String)
    (value : Value) (ttl : Option Nat) (now : Nat) :
    ((c.set key value ttl now).cache.length ≤
        (c.set key value ttl now).max_size ∧
      (c.set key value ttl now).current_memory ≤
        ((c.set key value ttl now).max_memory_bytes : Int)) ∨
    (∃ e : CacheEntry, (c.set key value ttl now).cache = [(key, e)] ∧
      ((c.set key value ttl now).max_memory_bytes : Int) <
        (e.size_bytes : Int)) := by
  have hInv := reachable_inv hre
  have hInv1 := set_pre_inv hInv key
  obtain ⟨ea, hset⟩ := set_decomp c key value ttl now
  have hInv2 : CacheInv ((if (dictLookup c.cache key).isSome then
      c.remove_entry key else c).evictLoop (estimate_size value)) :=
    evictLoopFuel_inv _ _ hInv1
  have hpost := evictLoopFuel_post (estimate_size value)
    (if (dictLookup c.cache key).isSome then c.remove_entry key
      else c).access_order.length hInv1 (Nat.le_refl _)
  rw [← evictLoop_def] at hpost
  have hnone2 := set_pre_lookup_none c key (estimate_size value)
  have hf2 := evictLoopFuel_fields (estimate_size value)
    (if (dictLookup c.cache key).isSome then c.remove_entry key
      else c).access_order.length
    (if (dictLookup c.cache key).isSome then c.remove_entry key else c)
  rw [← evictLoop_def] at hf2
  have hf1 : (if (dictLookup c.cache key).isSome then c.remove_entry key
        else c).max_size = c.max_size ∧
      (if (dictLookup c.cache key).isSome then c.remove_entry key
        else c).max_memory_bytes = c.max_memory_bytes := by
    split
    · exact ⟨(remove_entry_fields c key).1, (remove_entry_fields c key).2.1⟩
    · exact ⟨rfl, rfl⟩
  rw [hset]
  dsimp only
  rw [dictInsert_of_none hnone2]
  rcases hpost with hcond | hempty
  · left
    push_neg at hcond
    constructor
    · rw [List.length_append]
      have h1 := hcond.1
      simp only [List.length_cons, List.length_nil]
      omega
    · have h2 := hcond.2
      omega
  · have hm2 : ((if (dictLookup c.cache key).isSome then c.remove_entry key
        else c).evictLoop (estimate_size value)).current_memory = 0 := by
      have hm := hInv2.mem
      simp only [LRUCache.memSum, hempty, List.map_nil, List.sum_nil] at hm
      simpa using hm
    by_cases hbig : (((if (dictLookup c.cache key).isSome then
        c.remove_entry key else c).evictLoop
          (estimate_size value)).max_memory_bytes : Int) <
        ((estimate_size value : Nat) : Int)
    · right
      refine ⟨{ data := value, created_at := now, last_accessed := now,
                access_count := 0, size_bytes := estimate_size value,
                expires_at := ea }, ?_, ?_⟩
      · rw [hempty, List.nil_append]
      · exact hbig
    · left
      constructor
      · rw [hempty, List.length_append]
        have hmax : ((if (dictLookup c.cache key).isSome then
            c.remove_entry key else c).evictLoop
              (estimate_size value)).max_size = c.max_size :=
          hf2.1.trans hf1.1
        simp only [List.length_nil, List.length_cons]
        omega
      · rw [hm2]
        omega

/-- Witness for C1 at a concrete input: a fresh one-entry, 1 MB cache
receiving one `set`. -/
theorem cache_bound_after_set_witness :
    CacheReachable (LRUCache.init 1 1 0) ∧
    0 < (LRUCache.init 1 1 0).max_size ∧
    0 < (LRUCache.init 1 1 0).max_memory_bytes ∧
    ((((LRUCache.init 1 1 0).set "a" Value.num none 0).cache.length ≤
        ((LRUCache.init 1 1 0).set "a" Value.num none 0).max_size ∧
      ((LRUCache.init 1 1 0).set "a" Value.num none 0).current_memory ≤
        ((((LRUCache.init 1 1 0).set "a" Value.num none 0).max_memory_bytes :
          Nat) : Int)) ∨
    (∃ e : CacheEntry,
      ((LRUCache.init 1 1 0).set "a" Value.num none 0).cache = [("a", e)] ∧
      ((((LRUCache.init 1 1 0).set "a" Value.num none 0).max_memory_bytes :
        Nat) : Int) < (e.size_bytes : Int))) :=
  ⟨CacheReachable.init 1 1 0, by decide, by decide,
    cache_bound_after_set _ (CacheReachable.init 1 1 0) (by decide) (by decide)
      "a" Value.num none 0⟩

/-- C9: in every reachable cache state — i.e. after every completed
operation on a fresh cache — the running memory counter equals the sum of
`size_bytes` over the stored entries; in particular it is never negative and
is exactly zero when the cache is empty. -/
theorem memory_accounting (c : LRUCache) (hre : CacheReachable c) :
    c.current_memory = (c.memSum : Int) ∧ 0 ≤ c.current_memory ∧
    (c.cache = [] → c.current_memory = 0) := by
  have h := reachable_inv hre
  refine ⟨h.mem, ?_, ?_⟩
  · rw [h.mem]
    exact Int.natCast_nonneg _
  · intro hnil
    rw [h.mem]
    simp [LRUCache.memSum, hnil]

/-- Witness for C9 at a concrete reachable state: one `set` on a fresh
cache. -/
theorem memory_accounting_witness :
    CacheReachable ((LRUCache.init 3 1 0).set "a" Value.num none 0) ∧
    (((LRUCache.init 3 1 0).set "a" Value.num none 0).current_memory =
      ((((LRUCache.init 3 1 0).set "a" Value.num none 0).memSum : Nat) :
        Int) ∧
    0 ≤ ((LRUCache.init 3 1 0).set "a" Value.num none 0).current_memory ∧
    (((LRUCache.init 3 1 0).set "a" Value.num none 0).cache = [] →
      ((LRUCache.init 3 1 0).set "a" Value.num none 0).current_memory = 0)) :=
  ⟨CacheReachable.set "a" Value.num none 0 (CacheReachable.init 3 1 0),
    memory_accounting _
      (CacheReachable.set "a" Value.num none 0 (CacheReachable.init 3 1 0))⟩

theorem get_expired_spec {c : LRUCache} {key : String} {e : CacheEntry}
    {t now : Nat} (hd : dictLookup c.cache key = some e)
    (hexp : e.expires_at = some t) (hlt : t < now) :
    (c.get key now).1 = Value.vnone ∧
    dictLookup (c.get key now).2.cache key = none ∧
    (c.get key now).2.misses = c.misses + 1 ∧
    (c.get key now).2.evictions = c.evictions := by
  have hexpB : entryExpired e now = true := by
    simp [entryExpired, hexp, hlt]
  rw [get_eq_expired hd hexpB]
  refine ⟨rfl, ?_, ?_, ?_⟩
  · show dictLookup (c.remove_entry key).cache key = none
    exact remove_entry_lookup_self c key
  · show (c.remove_entry key).misses + 1 = c.misses + 1
    rw [(remove_entry_fields c key).2.2.2.2.1]
  · show (c.remove_entry key).evictions = c.evictions
    exact (remove_entry_fields c key).2.2.2.2.2

/-- C3: a `get` on any key whose entry is past its expiry returns the none
value, removes the entry, bumps the miss counter, and leaves the eviction
counter unchanged; in particular this holds for a `get` at any instant
strictly later than `now + ttl` after `set(key, value, ttl)` at `now`. -/
theorem ttl_expiry_counts_as_miss :
    (∀ (c : LRUCache) (key : String) (e : CacheEntry) (t now : Nat),
      dictLookup c.cache key = some e → e.expires_at = some t → t < now →
      (c.get key now).1 = Value.vnone ∧
      dictLookup (c.get key now).2.cache key = none ∧
      (c.get key now).2.misses = c.misses + 1 ∧
      (c.get key now).2.evictions = c.evictions) ∧
    (∀ (c : LRUCache) (key : String) (value : Value) (ttl now1 now2 : Nat),
      now1 + ttl < now2 →
      ((c.set key value (some ttl) now1).get key now2).1 = Value.vnone ∧
      dictLookup ((c.set key value (some ttl) now1).get key now2).2.cache
        key = none ∧
      ((c.set key value (some ttl) now1).get key now2).2.misses =
        (c.set key value (some ttl) now1).misses + 1 ∧
      ((c.set key value (some ttl) now1).get key now2).2.evictions =
        (c.set key value (some ttl) now1).evictions) := by
  constructor
  · intro c key e t now hd hexp hlt
    exact get_expired_spec hd hexp hlt
  · intro c key value ttl now1 now2 hlt
    exact get_expired_spec (set_lookup_self c key value ttl now1) rfl hlt

/-- Witness for C3 at a concrete input: `set("K", num, ttl = 5)` at instant 0
followed by a `get` at instant 6. -/
theorem ttl_expiry_counts_as_miss_witness :
    (0 + 5 < 6) ∧
    ((((LRUCache.init 10 10 0).set "K" Value.num (some 5) 0).get "K" 6).1 =
        Value.vnone ∧
      dictLookup (((LRUCache.init 10 10 0).set "K" Value.num
        (some 5) 0).get "K" 6).2.cache "K" = none ∧
      (((LRUCache.init 10 10 0).set "K" Value.num (some 5) 0).get "K"
        6).2.misses =
        ((LRUCache.init 10 10 0).set "K" Value.num (some 5) 0).misses + 1 ∧
      (((LRUCache.init 10 10 0).set "K" Value.num (some 5) 0).get "K"
        6).2.evictions =
        ((LRUCache.init 10 10 0).set "K" Value.num (some 5) 0).evictions) :=
  ⟨by decide, ttl_expiry_counts_as_miss.2 (LRUCache.init 10 10 0) "K"
    Value.num 5 0 6 (by decide)⟩

/-- C10: a stored, unexpired `None` value is returned by `get` as the very
`None` that also signals a miss — the public interface cannot distinguish a
cached `None` from an absent key (though the hit counter is bumped) — and
whenever `get` yields `None` the `timed_cache` wrapper re-invokes the
wrapped function and re-caches its result. -/
theorem cached_none_indistinguishable :
    (∀ (c : LRUCache) (key : String) (now : Nat),
      dictLookup c.cache key = none → (c.get key now).1 = Value.vnone) ∧
    (∀ (c : LRUCache) (key : String) (e : CacheEntry) (now : Nat),
      dictLookup c.cache key = some e → entryExpired e now = false →
      e.data = Value.vnone →
      (c.get key now).1 = Value.vnone ∧
      (c.get key now).2.hits = c.hits + 1) ∧
    (∀ (c : LRUCache) (key : String) (now : Nat) (func : Unit → Value),
      (c.get key now).1 = Value.vnone →
      timed_cache_wrapper c key func now =
        (func (), ((c.get key now).2).set key (func ()) none now)) := by
  refine ⟨?_, ?_, ?_⟩
  · intro c key now hd
    rw [get_eq_miss now hd]
  · intro c key e now hd hexp hdata
    rw [get_eq_hit hd hexp]
    exact ⟨hdata, rfl⟩
  · intro c key now func hres
    simp only [timed_cache_wrapper, hres, Value.isNone, if_true]

/-- Witness for C10 at a concrete input: a cache holding `None` under key
`k`, probed by `get` and through the `timed_cache` wrapper. -/
theorem cached_none_indistinguishable_witness :
    (dictLookup ((LRUCache.init 10 10 0).set "k" Value.vnone none 0).cache
        "k" =
      some ({ data := Value.vnone, created_at := 0, last_accessed := 0,
              access_count := 0, size_bytes := 104, expires_at := none } :
              CacheEntry)) ∧
    entryExpired ({ data := Value.vnone, created_at := 0, last_accessed := 0,
                    access_count := 0, size_bytes := 104,
                    expires_at := none } : CacheEntry) 0 = false ∧
    (({ data := Value.vnone, created_at := 0, last_accessed := 0,
        access_count := 0, size_bytes := 104,
        expires_at := none } : CacheEntry).data = Value.vnone) ∧
    ((((LRUCache.init 10 10 0).set "k" Value.vnone none 0).get "k" 0).1 =
        Value.vnone ∧
      (((LRUCache.init 10 10 0).set "k" Value.vnone none 0).get "k"
        0).2.hits =
        ((LRUCache.init 10 10 0).set "k" Value.vnone none 0).hits + 1) ∧
    timed_cache_wrapper ((LRUCache.init 10 10 0).set "k" Value.vnone none 0)
        "k" (fun _ => Value.num) 0 =
      (Value.num,
        ((((LRUCache.init 10 10 0).set "k" Value.vnone none 0).get "k"
          0).2).set "k" Value.num none 0) :=
  ⟨rfl, rfl, rfl,
    cached_none_indistinguishable.2.1
      ((LRUCache.init 10 10 0).set "k" Value.vnone none 0) "k"
      ({ data := Value.vnone, created_at := 0, last_accessed := 0,
         access_count := 0, size_bytes := 104, expires_at := none } :
         CacheEntry) 0 rfl rfl rfl,
    cached_none_indistinguishable.2.2
      ((LRUCache.init 10 10 0).set "k" Value.vnone none 0) "k" 0
      (fun _ => Value.num) rfl⟩

/-- C2: with `max_size = 2`, the sequence set(A), set(B), get(A), set(C)
evicts exactly B — the intervening get moved A to the MRU end, leaving B at
the LRU head — so afterwards A and C are the stored keys, one eviction was
counted, get(A) and get(C) hit (each bumps the hit counter and returns the
stored value) and get(B) misses. -/
theorem lru_eviction_scenario :
    dictLookup lruDemoAfterSetC.cache "B" = none ∧
    lruDemoAfterSetC.keys = ["A", "C"] ∧
    lruDemoAfterSetC.evictions = 1 ∧
    lruDemoFirstGetA.1 = Value.str "va" ∧
    lruDemoGetA.1 = Value.str "va" ∧
    lruDemoGetA.2.hits = lruDemoAfterSetC.hits + 1 ∧
    lruDemoGetC.1 = Value.str "vc" ∧
    lruDemoGetC.2.hits = lruDemoGetA.2.hits + 1 ∧
    lruDemoGetB.1 = Value.vnone ∧
    lruDemoGetB.2.misses = lruDemoGetC.2.misses + 1 :=
  ⟨rfl, rfl, rfl, rfl, rfl, rfl, rfl, rfl, rfl, rfl⟩

/-- C7 counterexample: at the concrete state reached by one 8-byte `set` on
a fresh cache with a 1 MB budget, the statistics record reports memory in
megabytes — `memory_used_mb = 8 / 2^20` against a byte counter of `8`, and
`max_memory_mb = 1` against a byte budget of `1048576` — so the claim that
`stats()` exposes these two fields in bytes is false. -/
theorem stats_memory_fields_not_bytes :
    ((LRUCache.init 5 1 0).set "a" Value.num none 0).current_memory = 8 ∧
    (LRUCache.get_stats ((LRUCache.init 5 1 0).set "a" Value.num none 0)
      ).memory_used_mb = 8 / 1048576 ∧
    ((LRUCache.init 5 1 0).set "a" Value.num none 0).max_memory_bytes =
      1048576 ∧
    (LRUCache.get_stats ((LRUCache.init 5 1 0).set "a" Value.num none 0)
      ).max_memory_mb = 1 ∧
    ¬((LRUCache.get_stats ((LRUCache.init 5 1 0).set "a" Value.num none 0)
        ).memory_used_mb =
      ((((LRUCache.init 5 1 0).set "a" Value.num none 0).current_memory :
        Int) : ℚ)) ∧
    ¬((LRUCache.get_stats ((LRUCache.init 5 1 0).set "a" Value.num none 0)
        ).max_memory_mb =
      ((((LRUCache.init 5 1 0).set "a" Value.num none 0).max_memory_bytes :
        Nat) : ℚ)) := by
  refine ⟨rfl, ?_, rfl, ?_, ?_, ?_⟩
  · show ((8 : Int) : ℚ) / (1024 * 1024) = 8 / 1048576
    norm_num
  · show ((1048576 : Nat) : ℚ) / (1024 * 1024) = 1
    norm_num
  · intro h
    rw [show (LRUCache.get_stats ((LRUCache.init 5 1 0).set "a" Value.num
        none 0)).memory_used_mb = ((8 : Int) : ℚ) / (1024 * 1024) from rfl,
      show ((((LRUCache.init 5 1 0).set "a" Value.num none 0).current_memory :
        Int) : ℚ) = ((8 : Int) : ℚ) from rfl] at h
    norm_num at h
  · intro h
    rw [show (LRUCache.get_stats ((LRUCache.init 5 1 0).set "a" Value.num
        none 0)).max_memory_mb = ((1048576 : Nat) : ℚ) / (1024 * 1024)
        from rfl,
      show ((((LRUCache.init 5 1 0).set "a" Value.num none 0
        ).max_memory_bytes : Nat) : ℚ) = ((1048576 : Nat) : ℚ) from rfl] at h
    norm_num at h

/-- C7 amended: in every cache state, `get_stats` returns the record with
fields size, max_size, memory_used_mb, max_memory_mb, hits, misses,
hit_rate and evictions, where the two memory figures equal the internal
byte counts divided by `1024 * 1024` — i.e. they are reported in megabytes,
not bytes. -/
theorem get_stats_spec (c : LRUCache) :
    c.get_stats =
      { size := c.cache.length, max_size := c.max_size,
        memory_used_mb := (c.current_memory : ℚ) / (1024 * 1024),
        max_memory_mb := (c.max_memory_bytes : ℚ) / (1024 * 1024),
        hits := c.hits, misses := c.misses,
        hit_rate := if 0 < c.hits + c.misses then
          (c.hits : ℚ) / ((c.hits + c.misses : Nat) : ℚ) else 0,
        evictions := c.evictions } ∧
    c.get_stats.memory_used_mb * (1024 * 1024) = (c.current_memory : ℚ) ∧
    c.get_stats.max_memory_mb * (1024 * 1024) = (c.max_memory_bytes : ℚ) := by
  refine ⟨rfl, ?_, ?_⟩
  · show (c.current_memory : ℚ) / (1024 * 1024) * (1024 * 1024) =
      (c.current_memory : ℚ)
    rw [div_mul_cancel₀]
    norm_num
  · show (c.max_memory_bytes : ℚ) / (1024 * 1024) * (1024 * 1024) =
      (c.max_memory_bytes : ℚ)
    rw [div_mul_cancel₀]
    norm_num

/-- C8: in every cache state, the reported hit rate is
`hits / (hits + misses)` when at least one request has been counted and `0`
otherwise. -/
theorem hit_rate_spec (c : LRUCache) :
    c.get_stats.hit_rate = if 0 < c.hits + c.misses then
      (c.hits : ℚ) / ((c.hits : ℚ) + (c.misses : ℚ)) else 0 := by
  show (if 0 < c.hits + c.misses then
    (c.hits : ℚ) / ((c.hits + c.misses : Nat) : ℚ) else 0) = _
  split
  · rw [Nat.cast_add]
  · rfl

theorem overall_total_operations (m : PerformanceMonitor) :
    m.get_overall_stats.total_operations = m.metrics.length := by
  unfold PerformanceMonitor.get_overall_stats
  split
  · rename_i hemp
    rw [List.isEmpty_iff] at hemp
    simp [OverallStats.total_operations, hemp]
  · rfl

theorem recordSample_eq (m : PerformanceMonitor) (x : PerformanceMetrics) :
    m.recordSample x =
      if m.max_metrics < (m.metrics ++ [x]).length then
        { m with metrics := pySliceLast m.max_metrics (m.metrics ++ [x]) }
      else { m with metrics := m.metrics ++ [x] } := rfl

theorem recorder_fold_metrics (maxm : Nat) (hm : 0 < maxm)
    (L : List PerformanceMetrics) :
    (L.foldl PerformanceMonitor.recordSample
      (PerformanceMonitor.init maxm)).metrics = L.drop (L.length - maxm) ∧
    (L.foldl PerformanceMonitor.recordSample
      (PerformanceMonitor.init maxm)).max_metrics = maxm := by
  induction L using List.reverseRecOn with
  | nil => exact ⟨by simp [PerformanceMonitor.init], rfl⟩
  | append_singleton xs x ih =>
    rcases ih with ⟨ihm, ihmax⟩
    rw [List.foldl_append, List.foldl_cons, List.foldl_nil, recordSample_eq,
      ihm, ihmax]
    constructor
    · by_cases hlen : xs.length < maxm
      · have hidx : xs.length - maxm = 0 := by omega
        have hcond : ¬(maxm < (List.drop (xs.length - maxm) xs ++ [x]).length)
            := by
          rw [hidx, List.drop_zero]
          simp only [List.length_append, List.length_cons, List.length_nil]
          omega
        rw [if_neg hcond]
        show List.drop (xs.length - maxm) xs ++ [x] =
          (xs ++ [x]).drop ((xs ++ [x]).length - maxm)
        have hidx2 : (xs ++ [x]).length - maxm = 0 := by
          simp only [List.length_append, List.length_cons, List.length_nil]
          omega
        rw [hidx, hidx2, List.drop_zero, List.drop_zero]
      · push_neg at hlen
        have hdlen : (List.drop (xs.length - maxm) xs).length = maxm := by
          rw [List.length_drop]
          omega
        have hcond : maxm < (List.drop (xs.length - maxm) xs ++ [x]).length
            := by
          simp only [List.length_append, List.length_cons, List.length_nil,
            hdlen]
          omega
        rw [if_pos hcond]
        show pySliceLast maxm (List.drop (xs.length - maxm) xs ++ [x]) =
          (xs ++ [x]).drop ((xs ++ [x]).length - maxm)
        unfold pySliceLast
        rw [if_neg (Nat.pos_iff_ne_zero.mp hm)]
        have hidx1 : (List.drop (xs.length - maxm) xs ++ [x]).length - maxm =
            1 := by
          simp only [List.length_append, List.length_cons, List.length_nil,
            hdlen]
          omega
        rw [hidx1]
        have hidx2 : (xs ++ [x]).length - maxm = (xs.length - maxm) + 1 := by
          simp only [List.length_append, List.length_cons, List.length_nil]
          omega
        rw [hidx2]
        have h1 : (List.drop (xs.length - maxm) xs ++ [x]).drop 1 =
            (List.drop (xs.length - maxm) xs).drop 1 ++ [x] := by
          rw [List.drop_append_of_le_length]
          omega
        rw [h1, List.drop_drop]
        have h2 : (xs ++ [x]).drop (xs.length - maxm + 1) =
            xs.drop (xs.length - maxm + 1) ++ [x] := by
          rw [List.drop_append_of_le_length]
          omega
        rw [h2]
    · split <;> rfl

/-- C6 counterexample: a recorder configured with `max_metrics = 0` never
trims — the Python slice `metrics[-0:]` is the whole list — so after recording
`maxSamples + 5 = 5` samples the stored sequence has length `5 > 0` and
`overallStats().totalOperations = 5 ≠ 0`, refuting the claim at capacity
zero. -/
theorem recorder_unbounded_at_zero_capacity :
    ((List.replicate 5 (⟨"op", 0, 0, false, 0, []⟩ :
        PerformanceMetrics)).foldl PerformanceMonitor.recordSample
      (PerformanceMonitor.init 0)).metrics.length = 5 ∧
    ((List.replicate 5 (⟨"op", 0, 0, false, 0, []⟩ :
        PerformanceMetrics)).foldl PerformanceMonitor.recordSample
      (PerformanceMonitor.init 0)).get_overall_stats.total_operations = 5 ∧
    ¬((5 : Nat) ≤ 0) ∧ (5 : Nat) ≠ 0 :=
  ⟨rfl, rfl, by decide, by decide⟩

/-- C6 amended (a positive capacity is required — the trim is a no-op when
`max_metrics = 0`): for every positive capacity and every sequence of
recorded samples, the stored sequence is exactly the most recent samples in
order — `L.drop (L.length - maxSamples)` — hence never longer than
`maxSamples`, and after `maxSamples + 5` records `overallStats()` reports
`totalOperations = maxSamples` with the 5 oldest samples dropped. -/
theorem recorder_bounding (maxm : Nat) (hm : 0 < maxm)
    (L : List PerformanceMetrics) :
    (L.foldl PerformanceMonitor.recordSample
      (PerformanceMonitor.init maxm)).metrics = L.drop (L.length - maxm) ∧
    (L.foldl PerformanceMonitor.recordSample
      (PerformanceMonitor.init maxm)).metrics.length ≤ maxm ∧
    (L.length = maxm + 5 →
      (L.foldl PerformanceMonitor.recordSample
        (PerformanceMonitor.init maxm)).get_overall_stats.total_operations =
        maxm ∧
      (L.foldl PerformanceMonitor.recordSample
        (PerformanceMonitor.init maxm)).metrics = L.drop 5) := by
  obtain ⟨hmet, hmax⟩ := recorder_fold_metrics maxm hm L
  refine ⟨hmet, ?_, ?_⟩
  · rw [hmet, List.length_drop]
    omega
  · intro hlen
    constructor
    · rw [overall_total_operations, hmet, List.length_drop]
      omega
    · rw [hmet, hlen]
      have h3 : ∀ a b : Nat, a = b → L.drop a = L.drop b :=
        fun a b hab => by rw [hab]
      exact h3 _ _ (by omega)

/-- Witness for the amended bounding theorem of C6 at a concrete input: capacity
2 with 7 recorded samples. -/
theorem recorder_bounding_witness :
    (0 < 2) ∧
    (((List.replicate 7 (⟨"op", 0, 0, false, 0, []⟩ :
        PerformanceMetrics)).foldl PerformanceMonitor.recordSample
      (PerformanceMonitor.init 2)).get_overall_stats.total_operations = 2 ∧
    ((List.replicate 7 (⟨"op", 0, 0, false, 0, []⟩ :
        PerformanceMetrics)).foldl PerformanceMonitor.recordSample
      (PerformanceMonitor.init 2)).metrics =
      (List.replicate 7 (⟨"op", 0, 0, false, 0, []⟩ :
        PerformanceMetrics)).drop 5) :=
  ⟨by decide, (recorder_bounding 2 (by decide) _).2.2 (by decide)⟩

/-- C4: in a dispatched batch snapshot, the future of the request at every
index is settled from the callback and payload of that request alone — an
error rejects only its own future — and the snapshot leaves the pending
queue empty; instantiated at a five-request batch whose third callback
raises, the other four futures resolve with their own values while the third
rejects with exactly the raised error. -/
theorem batch_isolation :
    (∀ (α ε β : Type) (p : BatchProcessor α ε β) (i : Nat),
      (p.process_batch).1[i]? =
        (p.pending_requests[i]?).map process_single_request ∧
      (p.process_batch).2.pending_requests = []) ∧
    (BatchProcessor.process_batch
      ({ batch_size := 10,
         pending_requests :=
           [⟨1, fun n => Except.ok (10 * n)⟩,
            ⟨2, fun n => Except.ok (10 * n)⟩,
            ⟨3, fun _ => Except.error "boom"⟩,
            ⟨4, fun n => Except.ok (10 * n)⟩,
            ⟨5, fun n => Except.ok (10 * n)⟩] } :
        BatchProcessor Nat String Nat)).1 =
      [Except.ok 10, Except.ok 20, Except.error "boom", Except.ok 40,
        Except.ok 50] := by
  constructor
  · intro α ε β p i
    constructor
    · show (p.pending_requests.map process_single_request)[i]? = _
      rw [List.getElem?_map]
    · rfl
  · rfl

theorem countRunning_cons (x : TaskPhase) (l : List TaskPhase) :
    countRunning (x :: l) =
      (if x.isRunning then 1 else 0) + countRunning l := by
  cases hx : x.isRunning
  · simp [countRunning, List.filter_cons, hx]
  · simp [countRunning, List.filter_cons, hx]
    omega

theorem countRunning_set {ts : List TaskPhase} {i : Nat} {a : TaskPhase}
    (h : ts[i]? = some a) (b : TaskPhase) :
    countRunning (ts.set i b) + (if a.isRunning then 1 else 0) =
      countRunning ts + (if b.isRunning then 1 else 0) := by
  induction ts generalizing i with
  | nil => simp at h
  | cons t ts ih =>
    cases i with
    | zero =>
      simp only [List.getElem?_cons_zero, Option.some_inj] at h
      subst h
      rw [List.set_cons_zero, countRunning_cons, countRunning_cons]
      omega
    | succ i =>
      simp only [List.getElem?_cons_succ] at h
      rw [List.set_cons_succ, countRunning_cons, countRunning_cons]
      have := ih h
      omega

theorem countRunning_append (l₁ l₂ : List TaskPhase) :
    countRunning (l₁ ++ l₂) = countRunning l₁ + countRunning l₂ := by
  simp [countRunning, List.filter_append]

theorem pool_invariant {m : Nat} {s : PoolState} (h : PoolReachable m s) :
    countRunning s.tasks + s.sem = m ∧ s.max_workers = m := by
  induction h with
  | init =>
    refine ⟨?_, rfl⟩
    simp [PoolState.init, countRunning]
  | step _ hstep ih =>
    cases hstep with
    | submit =>
      refine ⟨?_, ih.2⟩
      dsimp only
      rw [countRunning_append]
      have h0 : countRunning [TaskPhase.waiting] = 0 := rfl
      have h1 := ih.1
      omega
    | acquire i hw hs =>
      refine ⟨?_, ih.2⟩
      dsimp only
      have hcount := countRunning_set hw TaskPhase.running
      have e1 : TaskPhase.isRunning .waiting = false := rfl
      have e2 : TaskPhase.isRunning .running = true := rfl
      rw [e1, e2] at hcount
      simp only [Bool.false_eq_true, if_false, if_true] at hcount
      have h1 := ih.1
      omega
    | complete i success hr =>
      refine ⟨?_, ih.2⟩
      dsimp only
      have hcount := countRunning_set hr (TaskPhase.done success)
      have e1 : TaskPhase.isRunning .running = true := rfl
      have e2 : TaskPhase.isRunning (.done success) = false := rfl
      rw [e1, e2] at hcount
      simp only [Bool.false_eq_true, if_false, if_true] at hcount
      have h1 := ih.1
      omega

/-- C5: in every state reachable by any interleaving of submissions, permit
acquisitions, and completions on an `AsyncPoolExecutor(max_workers)`, the
number of concurrently executing task bodies never exceeds `max_workers`;
the step relation itself encodes that each task acquires a permit before
running and releases it on completion, success or failure alike, before the
outcome propagates. -/
theorem limiter_admission {m : Nat} {s : PoolState}
    (h : PoolReachable m s) : countRunning s.tasks ≤ s.max_workers := by
  have hi := pool_invariant h
  omega

/-- Witness for C5 at a concrete reachable state: two submissions and one
admission on a two-permit pool. -/
theorem limiter_admission_witness :
    PoolReachable 2
      ({ max_workers := 2, sem := 1, tasks := [.running, .waiting] } :
        PoolState) ∧
    countRunning
      ({ max_workers := 2, sem := 1, tasks := [.running, .waiting] } :
        PoolState).tasks ≤
      ({ max_workers := 2, sem := 1, tasks := [.running, .waiting] } :
        PoolState).max_workers := by
  have h0 : PoolReachable 2 (PoolState.init 2) := PoolReachable.init
  have h1 := PoolReachable.step h0 (PoolStep.submit (PoolState.init 2))
  have h2 := PoolReachable.step h1 (PoolStep.submit _)
  have h3 := PoolReachable.step h2 (PoolStep.acquire _ 0 rfl (by decide))
  have hreach : PoolReachable 2
      ({ max_workers := 2, sem := 1, tasks := [.running, .waiting] } :
        PoolState) := h3
  exact ⟨hreach, limiter_admission hreach⟩
